import Mathlib

/-!
Verification of the Wigmore-chart renderer (graph validation, hierarchy
building, text parsing, and the coordinate layout passes).

The development shallowly embeds the program's logic:

* numbers are modelled as rationals (`ℚ`), since every coordinate produced by
  the layout code is obtained from integer constants by `+ - * /`, `min`,
  `max` and `Math.round`; no transcendental or inexact float behaviour is
  exercised by the code;
* a JS `Map` is modelled as an association list in insertion order, where
  setting an existing key updates the value in place (`jsSet`), matching the
  iteration-order semantics of `Map`;
* a JS `Set` of numbers / strings is modelled as a `Finset` (only membership
  is ever observed);
* `Math.round(v / 50) * 50` is modelled by `jsRound50` (`Math.round` is
  floor of `v + 1/2`);
* the `while` loops that shift a coordinate until a slot is free are modelled
  by the well-founded recursions `bumpY` and `bumpX`;
* code that can throw returns `Except JsErr`.
-/

namespace Wigmore

/-- A 2D position, as stored in the `nodePositions` map of the layout code. -/
structure Pos where
  x : ℚ
  y : ℚ
deriving DecidableEq

/-- Error outcomes of JS evaluation: a `TypeError` from reading a property of
`undefined`, or an explicit `throw` of a string. -/
inductive JsErr where
  | typeError
  | thrown (msg : String)
deriving DecidableEq

/-- JS `Map.prototype.get`, on an insertion-ordered association list. -/
def jsGet {α β : Type} [DecidableEq α] (m : List (α × β)) (k : α) : Option β :=
  match m with
  | [] => none
  | (k0, v0) :: rest => if k0 = k then some v0 else jsGet rest k

/-- JS `Map.prototype.set`: updates an existing key in place (keeping its
insertion position) or appends a new entry. -/
def jsSet {α β : Type} [DecidableEq α] (m : List (α × β)) (k : α) (v : β) :
    List (α × β) :=
  match m with
  | [] => [(k, v)]
  | (k0, v0) :: rest => if k0 = k then (k0, v) :: rest else (k0, v0) :: jsSet rest k v

/-- The keys of a modelled JS `Map`, in insertion order. -/
def jsKeys {α β : Type} (m : List (α × β)) : List α := m.map Prod.fst

/-- JS `Math.round(y / 50) * 50`, the discretised y-level used by the layout
code for its occupied-level bookkeeping (`Math.round x = ⌊x + 1/2⌋`). -/
def jsRound50 (y : ℚ) : ℤ :=
  ⌊y / 50 + 1 / 2⌋ * 50

/-- JS loop `while (occupied.has(round50 y)) y += 50`, used by every collision
scan in the layout code.  It terminates because each iteration moves to a
strictly larger discretised level, so the occupied levels at or above the
current one strictly decrease. -/
def bumpY (occ : Finset ℤ) (y : ℚ) : ℚ :=
  if h : jsRound50 y ∈ occ then bumpY occ (y + 50) else y
termination_by (occ.filter (fun l => jsRound50 y ≤ l)).card
decreasing_by
  have hstep : jsRound50 (y + 50) = jsRound50 y + 50 := by
    unfold jsRound50
    have harg : (y + 50) / 50 + 1 / 2 = (y / 50 + 1 / 2) + 1 := by ring
    rw [harg, Int.floor_add_one]; ring
  apply Finset.card_lt_card
  constructor
  · intro a ha
    simp only [Finset.mem_filter] at ha ⊢
    exact ⟨ha.1, by omega⟩
  · intro hsub
    have h1 : jsRound50 y ∈ occ.filter (fun l => jsRound50 y ≤ l) := by
      simp [h]
    have h2 := hsub h1
    simp only [Finset.mem_filter] at h2
    omega

/-- JS loop `while (xs.some(x => Math.abs(x - adjX) < 100)) adjX += 50` from
the refutation placement.  It terminates because `adjX` grows by 50 each
iteration while the finitely many occupied x's are bounded. -/
def bumpX (xs : List ℚ) (adjX : ℚ) : ℚ :=
  if h : xs.any (fun x => decide (|x - adjX| < 100)) then bumpX xs (adjX + 50)
  else adjX
termination_by (⌈xs.foldr max 0 + 100 - adjX⌉).toNat
decreasing_by
  simp only [List.any_eq_true, decide_eq_true_eq] at h
  obtain ⟨x, hx, hlt⟩ := h
  have hle : x ≤ xs.foldr max 0 := by
    clear hlt
    induction xs with
    | nil => simp at hx
    | cons a rest ih =>
      simp only [List.mem_cons] at hx
      rcases hx with rfl | hx
      · exact le_max_left _ _
      · exact le_trans (ih hx) (le_max_right _ _)
  have hpos : (0 : ℚ) < xs.foldr max 0 + 100 - adjX := by
    have : adjX - 100 < x := by
      have := abs_lt.mp hlt
      linarith [this.2]
    linarith
  have hceil : (1 : ℤ) ≤ ⌈xs.foldr max 0 + 100 - adjX⌉ := by
    have := Int.ceil_pos.mpr hpos
    omega
  have hsub : ⌈xs.foldr max 0 + 100 - (adjX + 50)⌉ = ⌈xs.foldr max 0 + 100 - adjX⌉ - 50 := by
    have harg : xs.foldr max 0 + 100 - (adjX + 50) =
        (xs.foldr max 0 + 100 - adjX) + (-50 : ℤ) := by push_cast; ring
    rw [harg, Int.ceil_add_int]; omega
  omega

/-!
Simple-notation variant (`src/WigmoreChart.tsx`): raw data, validation,
hierarchy building and root selection from the `useMemo`, plus the render
outcome.  Node and edge fields are strings because the raw input may carry
arbitrary type tags; validation checks membership in the closed sets.  Edge
endpoints are modelled as the endpoint's id: the source handles both the
`string` and the `{id: ...}` object form of an endpoint, and in both branches
only the id is consulted.
-/

/-- A raw node record as consumed by the simple-variant component and as
produced by its parser (`id | label | type`). -/
structure RawNode where
  id : String
  label : String
  type : String
deriving DecidableEq

/-- A raw edge record (`source -> target | type`). -/
structure RawEdge where
  source : String
  target : String
  type : String
deriving DecidableEq

/-- The `WigmoreData` input shape: raw node and edge lists. -/
structure WigmoreData where
  nodes : List RawNode
  edges : List RawEdge
deriving DecidableEq

/-- Node validation of the simple variant: keep nodes with a non-empty id and
a type in {evidence, inference, conclusion}. -/
def validNodes (data : WigmoreData) : List RawNode :=
  data.nodes.filter fun n =>
    n.id != "" && ["evidence", "inference", "conclusion"].contains n.type

/-- Edge validation of the simple variant: keep edges whose type is in
{support, contradict} and whose endpoints are ids of kept nodes. -/
def validEdges (data : WigmoreData) : List RawEdge :=
  let ids := (validNodes data).map RawNode.id
  data.edges.filter fun e =>
    ["support", "contradict"].contains e.type &&
      ids.contains e.source && ids.contains e.target

/-- The `nodeMap` build: every valid node is stored under its id with a fresh
empty `children` list (`{...node, children: []}`); a duplicate id overwrites
the value but keeps the first insertion position, as a JS `Map` does.  The
map value here is the children id list of the stored copy (the only mutable
part the later passes touch). -/
def initChildren (ids : List String) : List (String × List String) :=
  ids.foldl (fun m i => jsSet m i []) []

/-- Processing of one validated edge in the hierarchy build: if both endpoint
copies are found in the node map, push the source copy onto the target copy's
children unless already present.  The JS duplicate check
`targetNode.children.includes(sourceNode)` compares object identity; since the
map holds exactly one copy per id and children receive only map copies, this
is id equality, so children are lists of ids here.  (The guard
`if (!targetNode.children) targetNode.children = []` in the source is a no-op
because every copy is created with `children: []`.) -/
def childStep (m : List (String × List String)) (e : RawEdge) :
    List (String × List String) :=
  match jsGet m e.source, jsGet m e.target with
  | some _, some cs =>
      if e.source ∈ cs then m else jsSet m e.target (cs ++ [e.source])
  | _, _ => m

/-- The full children-attachment pass of the simple variant: note that it
iterates over ALL validated edges — "support" and "contradict" alike. -/
def childrenMap (data : WigmoreData) : List (String × List String) :=
  (validEdges data).foldl childStep (initChildren ((validNodes data).map RawNode.id))

/-- The children id list attached to node `p` by the simple-variant hierarchy
build. -/
def childIds (data : WigmoreData) (p : String) : List String :=
  (jsGet (childrenMap data) p).getD []

/-- Root-id selection of the simple variant:
`validNodes.find(n => n.type === "conclusion")?.id || validNodes[0].id`.
The `||` falls through on a falsy (empty) id; `validNodes[0].id` throws a
`TypeError` when the validated list is empty. -/
def rootIdSimple (vns : List RawNode) : Except JsErr String :=
  let fallback : Except JsErr String :=
    match vns with
    | [] => Except.error JsErr.typeError
    | n :: _ => Except.ok n.id
  match vns.find? (fun n => n.type == "conclusion") with
  | some n => if n.id = "" then fallback else Except.ok n.id
  | none => fallback

/-- Result of the simple-variant `useMemo`: the deduplicated node ids in map
order (`Array.from(nodeMap.values())`), the validated edges, the children
map, and the selected root id. -/
structure SimpleResult where
  nodeIds : List String
  edges : List RawEdge
  children : List (String × List String)
  rootId : String
deriving DecidableEq

/-- The validate-and-build-hierarchy `useMemo` of the simple variant; throws
(`Except.error`) exactly when root selection reads `.id` of `undefined`. -/
def buildHierarchy (data : WigmoreData) : Except JsErr SimpleResult :=
  let ch := childrenMap data
  match rootIdSimple (validNodes data) with
  | Except.error e => Except.error e
  | Except.ok rid => Except.ok ⟨jsKeys ch, validEdges data, ch, rid⟩

/-- What the component renders. -/
inductive RenderOutcome where
  | crashed (e : JsErr)
  | noData
  | svgChart
deriving DecidableEq

/-- The component's render: a throw inside the `useMemo` propagates out of the
render; otherwise `nodes.length === 0` selects the "No valid data to display"
branch, else the SVG chart is rendered. -/
def renderSimple (data : WigmoreData) : RenderOutcome :=
  match buildHierarchy data with
  | Except.error e => RenderOutcome.crashed e
  | Except.ok r =>
      if r.nodeIds.length = 0 then RenderOutcome.noData else RenderOutcome.svgChart

/-!
The text parser `parseWigmoreText` (simple notation).  JS string splitting and
trimming are re-implemented structurally over `List Char` so that concrete
inputs evaluate inside the kernel; the semantics match
`String.prototype.split` with a literal separator and
`String.prototype.trim` on the ASCII whitespace the inputs use.
-/

/-- Fuel-driven core of JS `split` with a literal separator; the fuel is the
input length plus one, which is always sufficient since every step consumes
at least one character. -/
def jsSplitAux (sep : List Char) : Nat → List Char → List Char → List (List Char)
  | 0, acc, _ => [acc.reverse]
  | _ + 1, acc, [] => [acc.reverse]
  | fuel + 1, acc, c :: rest =>
    if sep.isPrefixOf (c :: rest) then
      acc.reverse :: jsSplitAux sep fuel [] ((c :: rest).drop sep.length)
    else
      jsSplitAux sep fuel (c :: acc) rest

/-- JS `s.split(sep)` for a non-empty literal separator. -/
def jsSplit (sep : String) (s : String) : List String :=
  (jsSplitAux sep.data (s.data.length + 1) [] s.data).map fun cs => ⟨cs⟩

/-- The whitespace characters relevant to the parsed inputs. -/
def jsWhitespace (c : Char) : Bool :=
  c == ' ' || c == '\t' || c == '\n' || c == '\r'

/-- JS `s.trim()`. -/
def jsTrim (s : String) : String :=
  ⟨((s.data.dropWhile jsWhitespace).reverse.dropWhile jsWhitespace).reverse⟩

/-- Parser state: the two section flags and the accumulated records. -/
structure ParseSt where
  inNodes : Bool
  inEdges : Bool
  nodes : List RawNode
  edges : List RawEdge

/-- A node line `id | label | type`: kept when id and label are truthy and
the type is recognised.  A missing field destructures to `undefined` in JS;
both `undefined` and the empty string are falsy and fail the `includes`
checks, so defaulting missing fields to `""` is faithful. -/
def parseNodeLine (line : String) : Option RawNode :=
  let parts := (jsSplit "|" line).map jsTrim
  if parts.getD 0 "" ≠ "" ∧ parts.getD 1 "" ≠ "" ∧
      parts.getD 2 "" ∈ ["evidence", "inference", "conclusion"] then
    some ⟨parts.getD 0 "", parts.getD 1 "", parts.getD 2 ""⟩
  else none

/-- An edge line `source -> target | type`: kept when both endpoints are
truthy and the type is recognised. -/
def parseEdgeLine (line : String) : Option RawEdge :=
  let parts := (jsSplit "|" line).map jsTrim
  let stParts := (jsSplit "->" (parts.getD 0 "")).map jsTrim
  if stParts.getD 0 "" ≠ "" ∧ stParts.getD 1 "" ≠ "" ∧
      parts.getD 1 "" ∈ ["support", "contradict"] then
    some ⟨stParts.getD 0 "", stParts.getD 1 "", parts.getD 1 ""⟩
  else none

/-- The `if (isNodesSection)` block of the loop body. -/
def parseNodeStage (st : ParseSt) (line : String) : ParseSt :=
  if st.inNodes then
    match parseNodeLine line with
    | some r => ⟨st.inNodes, st.inEdges, st.nodes ++ [r], st.edges⟩
    | none => st
  else st

/-- The `if (isEdgesSection)` block of the loop body. -/
def parseEdgeStage (st : ParseSt) (line : String) : ParseSt :=
  if st.inEdges then
    match parseEdgeLine line with
    | some r => ⟨st.inNodes, st.inEdges, st.nodes, st.edges ++ [r]⟩
    | none => st
  else st

/-- One line of `parseWigmoreText`: section markers flip the flags; otherwise
the node block and then the edge block run on the line (they are two separate
`if`s in the source, mutually exclusive through the flags).  Unparseable
lines are skipped silently. -/
def parseLine (st : ParseSt) (line : String) : ParseSt :=
  if line = "Nodes:" then ⟨true, false, st.nodes, st.edges⟩
  else if line = "Edges:" then ⟨false, true, st.nodes, st.edges⟩
  else parseEdgeStage (parseNodeStage st line) line

/-- The exported parser: trim the input, split into lines, and fold the
line parser over them. -/
def parseWigmoreText (text : String) : WigmoreData :=
  let lines := jsSplit "\n" (jsTrim text)
  let fin := lines.foldl parseLine ⟨false, false, [], []⟩
  ⟨fin.nodes, fin.edges⟩

/-- The reference scenario (the repository's `data.ts` demo graph): three
support edges and one contradiction edge into I1. -/
def demoData : WigmoreData :=
  ⟨[⟨"E1", "Witness testimony", "evidence"⟩,
    ⟨"E2", "Documentary evidence", "evidence"⟩,
    ⟨"I1", "Inference of guilt", "inference"⟩,
    ⟨"C1", "Defendant is guilty", "conclusion"⟩,
    ⟨"E3", "Contradictory testimony", "evidence"⟩],
   [⟨"E1", "I1", "support"⟩,
    ⟨"E2", "I1", "support"⟩,
    ⟨"I1", "C1", "support"⟩,
    ⟨"E3", "I1", "contradict"⟩]⟩

/-!
Extended-notation variant (the unnamed `WigmoreChart` using
support/explain/refute edges).  Its `useMemo` mutates children arrays through
a node map of copies, so it is modelled with an explicit heap of arrays: the
caller owns the arrays present in the initial heap, and `{...node, children:
node.children || []}` either aliases the caller's array or allocates a fresh
one.  Array elements are object references (`HVal`): a caller-owned object or
the per-id copy held by the node map.  Field writes never hit caller objects
in this code (`targetNode.children = targetNode.children || []` is a no-op
because every copy has its children field set), so only arrays live in the
heap.
-/

/-- An object reference that can appear inside a children array: a
caller-owned object (with its identity `k` and its `id` field) or the node
map's copy for a given id (one copy per id, so the id identifies it). -/
inductive HVal where
  | callerObj (k : Nat) (id : String)
  | copyObj (id : String)
deriving DecidableEq

/-- The `id` field of a referenced object. -/
def HVal.idOf : HVal → String
  | callerObj _ i => i
  | copyObj i => i

/-- A node record of the extended notation; `childrenRef` is the caller's
children array, when the caller supplied one. -/
structure PNode where
  id : String
  label : String
  type : String
  childrenRef : Option Nat
deriving DecidableEq

/-- An edge record of the extended notation. -/
structure PEdge where
  source : String
  target : String
  type : String
deriving DecidableEq

/-- Extended-notation input data. -/
structure PData where
  nodes : List PNode
  edges : List PEdge
deriving DecidableEq

/-- The heap: the mutable children arrays, addressed by index. -/
structure Heap where
  arrs : List (List HVal)
deriving DecidableEq

/-- Read an array (a missing reference reads as empty). -/
def heapGet (h : Heap) (r : Nat) : List HVal := h.arrs.getD r []

/-- Overwrite an array in place. -/
def heapSet (h : Heap) (r : Nat) (v : List HVal) : Heap := ⟨h.arrs.set r v⟩

/-- Allocate a new array, returning its reference. -/
def heapAlloc (h : Heap) (v : List HVal) : Heap × Nat :=
  (⟨h.arrs ++ [v]⟩, h.arrs.length)

/-- A node-map copy: the copied scalar fields plus the reference of its
children array. -/
structure PCopy where
  id : String
  label : String
  type : String
  childRef : Nat
deriving DecidableEq

/-- One step of the extended variant's node map build:
`nodeMap.set(node.id, { ...node, children: node.children || [] })` — the copy
aliases the caller's children array when present, otherwise gets a fresh
empty one. -/
def addCopyAliasing (st : List (String × PCopy) × Heap) (n : PNode) :
    List (String × PCopy) × Heap :=
  match n.childrenRef with
  | some r => (jsSet st.1 n.id ⟨n.id, n.label, n.type, r⟩, st.2)
  | none =>
      let (h2, r) := heapAlloc st.2 []
      (jsSet st.1 n.id ⟨n.id, n.label, n.type, r⟩, h2)

/-- One step of the simple variant's node map build, in the same heap view:
`nodeMap.set(node.id, { ...node, children: [] })` — always a fresh array. -/
def addCopyFresh (st : List (String × PCopy) × Heap) (n : PNode) :
    List (String × PCopy) × Heap :=
  let (h2, r) := heapAlloc st.2 []
  (jsSet st.1 n.id ⟨n.id, n.label, n.type, r⟩, h2)

/-- Attach one edge's source as a child of its target (common to both
variants): look both copies up, then push the source copy onto the target
copy's children array unless `includes` (object identity) already finds it. -/
def pushEdgeChild (m : List (String × PCopy)) (h : Heap) (e : PEdge) : Heap :=
  match jsGet m e.source, jsGet m e.target with
  | some src, some tgt =>
      let cs := heapGet h tgt.childRef
      if HVal.copyObj src.id ∈ cs then h
      else heapSet h tgt.childRef (cs ++ [HVal.copyObj src.id])
  | _, _ => h

/-- Result of the extended variant's `useMemo`. -/
structure P5Result where
  nodeMap : List (String × PCopy)
  rootId : String
  rootChildRef : Nat
deriving DecidableEq

/-- The extended variant's `useMemo`: build the aliasing node map, attach a
child for every "support" edge, find the conclusion node with a non-null
assertion (`data.nodes.find(n => n.type === "conclusion")!.id` — a
`TypeError` when none exists), attach refutation sources whose children do
not contain the conclusion as extra children of the conclusion, and build
`updatedRoot` with a spread-copied children array. -/
def buildHierarchyP5 (data : PData) (h0 : Heap) : Except JsErr (P5Result × Heap) :=
  let (m, h1) := data.nodes.foldl addCopyAliasing ([], h0)
  let h2 := (data.edges.filter fun e => e.type == "support").foldl
    (fun h e => pushEdgeChild m h e) h1
  match data.nodes.find? (fun n => n.type == "conclusion") with
  | none => Except.error JsErr.typeError
  | some cn =>
    match jsGet m cn.id with
    | none => Except.error (JsErr.thrown "no rootNode")
    | some c =>
      let refuteNodes := ((data.edges.filter fun e => e.type == "refute").filterMap
          fun e => jsGet m e.source).filter
        fun src => !((heapGet h2 src.childRef).any fun v => v.idOf == c.id)
      let h3 := refuteNodes.foldl
        (fun h src =>
          let cs := heapGet h c.childRef
          if HVal.copyObj src.id ∈ cs then h
          else heapSet h c.childRef (cs ++ [HVal.copyObj src.id]))
        h2
      let (h4, rref) := heapAlloc h3 (heapGet h3 c.childRef)
      Except.ok (⟨m, c.id, rref⟩, h4)

/-- The simple variant's node-map build and children attachment, in the heap
view (used to state that IT does not mutate caller arrays): validation as in
`validNodes`/`validEdges`, copies with always-fresh children arrays, then one
push per validated edge. -/
def buildHierarchyHeap (data : PData) (h0 : Heap) : List (String × PCopy) × Heap :=
  let vns := data.nodes.filter fun n =>
    n.id != "" && ["evidence", "inference", "conclusion"].contains n.type
  let ids := vns.map PNode.id
  let ves := data.edges.filter fun e =>
    ["support", "contradict"].contains e.type &&
      ids.contains e.source && ids.contains e.target
  let mh := vns.foldl addCopyFresh ([], h0)
  let h2 := ves.foldl (fun h e => pushEdgeChild mh.1 h e) mh.2
  (mh.1, h2)

/-!
The extended variant's layout passes (the `useEffect`): explanation
placement, refutation placement, the hard-coded X2/R2/E3 adjustment, the
single pairwise nudge scan, and the final clamp.  The tree pass itself is the
external `d3.tree` layout; the passes below consume its output, so they are
parameterised by the base position map it produced (and by the children lists
of the hierarchy copies, which the refutation pass walks).
-/

/-- The threaded layout state: the `nodePositions` map and the
`occupiedYLevels` set. -/
structure LayoutSt where
  pos : List (String × Pos)
  occ : Finset ℤ
deriving DecidableEq

/-- The occupied levels as initialised from the tree-pass positions:
`new Set(values.map(pos => Math.round(pos.y / 50) * 50))`. -/
def initOcc (m : List (String × Pos)) : Finset ℤ :=
  (m.map fun kv => jsRound50 kv.2.y).foldr insert ∅

/-- One explanation edge (global index `i` of `total` explain edges): if the
target has a position, place the source at the fixed left offset `-300` with
`staggerY = target.y + (i - (total - 1) / 2) * stagger`, shifted by 50 while
the discretised level is occupied, the level recorded, and the y clamped
above by the chart height. -/
def explainStep (chartHeight stagger : ℚ) (total : Nat) (st : LayoutSt)
    (ie : Nat × PEdge) : LayoutSt :=
  match jsGet st.pos ie.2.target with
  | none => st
  | some targetPos =>
    let staggerY :=
      bumpY st.occ (targetPos.y + ((ie.1 : ℚ) - ((total : ℚ) - 1) / 2) * stagger)
    ⟨jsSet st.pos ie.2.source ⟨targetPos.x + (-300), min staggerY chartHeight⟩,
     insert (jsRound50 staggerY) st.occ⟩

/-- The enumerated fold of `explainStep` over a list of indexed explain
edges. -/
def explainGo (chartHeight stagger : ℚ) (total : Nat) (st : LayoutSt)
    (l : List (Nat × PEdge)) : LayoutSt :=
  l.foldl (explainStep chartHeight stagger total) st

/-- The explanation pass: `edges.filter(e => e.type === "explain").forEach(...)`
with the global index and the global explain-edge count. -/
def explainPass (chartHeight stagger : ℚ) (edges : List PEdge) (st : LayoutSt) :
    LayoutSt :=
  let ex := edges.filter fun e => e.type == "explain"
  explainGo chartHeight stagger ex.length st ex.enum

/-- One refutation edge (index `i`): requires BOTH endpoints to already have
positions; y is shifted down past occupied levels only when some other node
sits within a 10-unit box of the source; x starts at
`target.x + 200 + i * 150` and is bumped right by 50 while within 100 units
of an occupied x at that y band; then the source is placed and the source
copy's hierarchy children are fanned out diagonally below-right. -/
def refuteStep (chartHeight levelHeight : ℚ) (childOf : String → List String)
    (st : LayoutSt) (ie : Nat × PEdge) : LayoutSt :=
  match jsGet st.pos ie.2.target, jsGet st.pos ie.2.source with
  | some targetPos, some sourcePos =>
    let clash := st.pos.filter fun kv =>
      kv.1 != ie.2.source && decide (|kv.2.x - sourcePos.x| < 10) &&
        decide (|kv.2.y - sourcePos.y| < 10)
    let yocc : ℚ × Finset ℤ :=
      if clash.length ≠ 0 then
        let a := bumpY st.occ (sourcePos.y + 50)
        (a, insert (jsRound50 a) st.occ)
      else (sourcePos.y, st.occ)
    let adjY := yocc.1
    let allX := (st.pos.filter fun kv => decide (|kv.2.y - adjY| < 10)).map
      fun kv => kv.2.x
    let adjX := bumpX allX (targetPos.x + (200 + (ie.1 : ℚ) * 150))
    let clampedY := min adjY chartHeight
    let pos1 := jsSet st.pos ie.2.source ⟨adjX, clampedY⟩
    let fin := (childOf ie.2.source).enum.foldl
      (fun (acc : List (String × Pos) × Finset ℤ) (ci : Nat × String) =>
        let childY := clampedY + levelHeight * ((ci.1 : ℚ) + 1)
        (jsSet acc.1 ci.2 ⟨adjX + ((ci.1 : ℚ) + 1) * 50, childY⟩,
         insert (jsRound50 childY) acc.2))
      (pos1, yocc.2)
    ⟨fin.1, fin.2⟩
  | _, _ => st

/-- The refutation pass: `edges.filter(e => e.type === "refute").forEach(...)`. -/
def refutePass (chartHeight levelHeight : ℚ) (childOf : String → List String)
    (edges : List PEdge) (st : LayoutSt) : LayoutSt :=
  ((edges.filter fun e => e.type == "refute").enum).foldl
    (refuteStep chartHeight levelHeight childOf) st

/-- The hard-coded adjustment after lateral placement: read (or default) the
position of node id "X2" and unconditionally overwrite the positions of node
ids "R2" and "E3" relative to it. -/
def hardcodeStep (levelHeight : ℚ) (m : List (String × Pos)) :
    List (String × Pos) :=
  let x2Pos := (jsGet m "X2").getD ⟨400, 400⟩
  jsSet (jsSet m "R2" ⟨x2Pos.x + 200, x2Pos.y⟩)
    "E3" ⟨x2Pos.x + 250, x2Pos.y + levelHeight⟩

/-- The inner comparison of the single pairwise nudge scan: both compared
positions come from the snapshot taken before the scan; on a collision the
second entry of the pair is moved right by 50 and down past occupied
levels. -/
def nudgeInner (p1 : Pos) (st : List (String × Pos) × Finset ℤ)
    (kv2 : String × Pos) : List (String × Pos) × Finset ℤ :=
  if |p1.x - kv2.2.x| < 50 ∧ |p1.y - kv2.2.y| < 50 then
    let adjY := bumpY st.2 (kv2.2.y + 50)
    (jsSet st.1 kv2.1 ⟨kv2.2.x + 50, adjY⟩, insert (jsRound50 adjY) st.2)
  else st

/-- The single pairwise nudge scan over `positionArray = entries` (a snapshot):
for every i < j, compare the snapshot positions and, on collision, write the
nudged position of the j-th id into the live map. -/
def nudgePass (st : LayoutSt) : LayoutSt :=
  let arr := st.pos
  let res := arr.enum.foldl
    (fun (acc : List (String × Pos) × Finset ℤ) (ikv : Nat × (String × Pos)) =>
      (arr.drop (ikv.1 + 1)).foldl (nudgeInner ikv.2.2) acc)
    (st.pos, st.occ)
  ⟨res.1, res.2⟩

/-- The final clamp of every position to `[0, chartWidth] × [0, chartHeight]`. -/
def clampPass (chartWidth chartHeight : ℚ) (m : List (String × Pos)) :
    List (String × Pos) :=
  m.map fun kv =>
    (kv.1, ⟨max 0 (min kv.2.x chartWidth), max 0 (min kv.2.y chartHeight)⟩)

/-- The complete post-tree layout of the extended variant, as a function of
the tree-pass output `base`, the edge list, the hierarchy children lists, and
the shape parameters (levelHeight, chartWidth, chartHeight).  The occupied
set is initialised from the tree positions; then the explanation pass, the
refutation pass, the hard-coded X2/R2/E3 adjustment, the single nudge scan,
and the clamp run in order. -/
def layoutLateral (base : List (String × Pos)) (edges : List PEdge)
    (childOf : String → List String) (levelHeight chartWidth chartHeight : ℚ) :
    List (String × Pos) :=
  let s1 := explainPass chartHeight levelHeight edges ⟨base, initOcc base⟩
  let s2 := refutePass chartHeight levelHeight childOf edges s1
  let m3 := hardcodeStep levelHeight s2.pos
  let s4 := nudgePass ⟨m3, s2.occ⟩
  clampPass chartWidth chartHeight s4.pos

/-!
The recursive layout variant (the unnamed `WigmoreChart` whose `useEffect`
positions nodes by walking child edges recursively through `positionNode`).
The recursion is modelled with an explicit fuel argument; `positionNode`
consumes one unit of fuel per nested call.  The entry point supplies
`(number of distinct edge sources) + 1` units, which theorem `C10` proves
sufficient: the processed-set guard admits each node id at most once, so the
walk terminates even on cyclic edge sets.  `fuelOut` records whether the
model ever ran out of fuel (it never does, by that theorem), and `log`
records the ids whose positions are set, in order. -/

/-- The state threaded through `positionNode`: the position map, the occupied
y-levels, the processed-node set, the log of position assignments, and the
out-of-fuel marker of the model. -/
structure St4 where
  pos : List (String × Pos)
  occ : Finset ℤ
  processed : Finset String
  log : List String
  fuelOut : Bool
deriving DecidableEq

/-- The slot computation of `positionNode`: the raw coordinates chosen by the
edge type — support: below the parent, shifted past occupied levels; explain:
left of the parent, staggered by the per-target explain-edge count; refute:
right of the parent, spread by the edge index; the final `else` of the source
is unreachable for the three recognised types but embedded faithfully — then
clamped to the chart box. -/
def posSlot (edges : List PEdge) (cw chH : ℚ) (occ : Finset ℤ)
    (parentPos : Pos) (edge : PEdge) (index : Nat) : Pos :=
  let raw : Pos :=
    if edge.type == "support" then
      ⟨parentPos.x, bumpY occ (parentPos.y + 50)⟩
    else if edge.type == "explain" then
      ⟨parentPos.x - 200,
       bumpY occ (parentPos.y +
         ((index : ℚ) -
           ((edges.filter fun e =>
               e.type == "explain" && e.target == edge.target).length : ℚ) / 2) * 50)⟩
    else if edge.type == "refute" then
      ⟨parentPos.x + 200 + (index : ℚ) * 50, bumpY occ parentPos.y⟩
    else
      ⟨parentPos.x, parentPos.y + 50⟩
  ⟨max 0 (min raw.x cw), max 0 (min raw.y chH)⟩

/-- Recording a computed slot: `nodePositions.set(nodeId, {x, y})` and
`occupiedYLevels.add(Math.round(y / 50) * 50)`, with the assignment logged. -/
def posCommit (st : St4) (nodeId : String) (xy : Pos) : St4 :=
  ⟨jsSet st.pos nodeId xy, insert (jsRound50 xy.y) st.occ,
   st.processed, st.log ++ [nodeId], st.fuelOut⟩

/-- The set of all edge sources — the only ids the recursive walk is ever
invoked on. -/
def sourcesFinset (edges : List PEdge) : Finset String :=
  (edges.map PEdge.source).toFinset

mutual

/-- The body of `positionNode(nodeId, parentPos, edge, index)`: return if the
node was already processed, otherwise mark it processed; then, if the node
map knows the id, compute the slot, record it, and recurse into all edges
targeting this node. -/
def posNode (edges : List PEdge) (nodeIds : List String) (cw chH : ℚ)
    (fuel : Nat) (st : St4) (nodeId : String) (parentPos : Pos) (edge : PEdge)
    (index : Nat) : St4 :=
  match fuel with
  | 0 => ⟨st.pos, st.occ, st.processed, st.log, true⟩
  | fuel + 1 =>
    if nodeId ∈ st.processed then st
    else
      let st1 : St4 := ⟨st.pos, st.occ, insert nodeId st.processed, st.log, st.fuelOut⟩
      if nodeIds.contains nodeId then
        let xy := posSlot edges cw chH st1.occ parentPos edge index
        posChildren edges nodeIds cw chH fuel (posCommit st1 nodeId xy)
          (edges.filter fun e => e.target == nodeId) 0 xy
      else st1
termination_by (fuel, 0)

/-- The `edges.filter(e => e.target === nodeId).forEach((childEdge, i) =>
positionNode(childEdge.source, pos, childEdge, i))` walk. -/
def posChildren (edges : List PEdge) (nodeIds : List String) (cw chH : ℚ)
    (fuel : Nat) (st : St4) (l : List PEdge) (i : Nat) (pos : Pos) : St4 :=
  match l with
  | [] => st
  | e :: rest =>
      posChildren edges nodeIds cw chH fuel
        (posNode edges nodeIds cw chH fuel st e.source pos e i) rest (i + 1) pos
termination_by (fuel, l.length + 1)

end

/-- The whole position computation of the recursive variant: bail out when
there are no nodes (the `useEffect` guard), otherwise pick the conclusion
node (or the first node), seat it at the top centre, and walk the edges that
target it.  `width`/`height` default to 1400/4000 in the source; the margins
are 300 horizontal and 200 vertical on each side. -/
def layoutRecursive (data : PData) (width height : ℚ) : Option St4 :=
  match data.nodes with
  | [] => none
  | n0 :: _ =>
    let conclusionId := ((data.nodes.find? fun n => n.type == "conclusion").getD n0).id
    let cw := width - 600
    let chH := height - 400
    let st0 : St4 := ⟨[(conclusionId, ⟨cw / 2, 0⟩)], {0}, {conclusionId},
      [conclusionId], false⟩
    let nodeIds := data.nodes.map PNode.id
    let fuel := ((data.edges.map PEdge.source).dedup).length + 1
    some (posChildren data.edges nodeIds cw chH fuel st0
      (data.edges.filter fun e => e.target == conclusionId) 0 ⟨cw / 2, 0⟩)

/-!  Concrete fixtures used by counterexamples and witnesses. -/

/-- An input text whose node lines repeat an id and whose edge references
ids never declared as nodes. -/
def c4text : String :=
  "Nodes:\nA | dup one | evidence\nA | dup two | evidence\nEdges:\nB -> C | support"

/-- Extended-notation data with a non-empty node list and no conclusion
node. -/
def c3badData : PData :=
  ⟨[⟨"A", "first node", "evidence", none⟩, ⟨"B", "second node", "inference", none⟩], []⟩

/-- Extended-notation data where the caller supplies its own (empty) children
array for I1 — heap reference 0 — and one support edge targets I1. -/
def c5data : PData :=
  ⟨[⟨"C1", "conclusion", "conclusion", none⟩,
    ⟨"I1", "inference", "inference", some 0⟩,
    ⟨"E1", "evidence", "evidence", none⟩],
   [⟨"E1", "I1", "support"⟩]⟩

/-- Base tree positions for the explanation-pass counterexample: two
positioned targets. -/
def c6base : List (String × Pos) := [("T1", ⟨500, 200⟩), ("T2", ⟨800, 600⟩)]

/-- Two explain edges with two different targets, so each target has exactly
one explanation but the edges have global indices 0 and 1. -/
def c6edges : List PEdge := [⟨"S1", "T1", "explain"⟩, ⟨"S2", "T2", "explain"⟩]

/-- A one-node graph for the recursive-layout witness. -/
def c10data : PData := ⟨[⟨"C1", "the conclusion", "conclusion", none⟩], []⟩

/-!  Helper lemmas about the JS `Map` model. -/

theorem jsGet_jsSet_self {α β : Type} [DecidableEq α] (m : List (α × β)) (k : α)
    (v : β) : jsGet (jsSet m k v) k = some v := by
  induction m with
  | nil => simp [jsSet, jsGet]
  | cons kv rest ih =>
    by_cases h : kv.1 = k
    · simp [jsSet, jsGet, h]
    · simpa [jsSet, jsGet, h] using ih

theorem jsGet_jsSet_ne {α β : Type} [DecidableEq α] (m : List (α × β)) (k k2 : α)
    (v : β) (hne : k ≠ k2) : jsGet (jsSet m k v) k2 = jsGet m k2 := by
  induction m with
  | nil => simp [jsSet, jsGet, hne]
  | cons kv rest ih =>
    by_cases h : kv.1 = k
    · have : ¬kv.1 = k2 := by rw [h]; exact hne
      simp [jsSet, jsGet, h, this, hne]
    · by_cases h2 : kv.1 = k2
      · simp [jsSet, jsGet, h, h2, Ne.symm hne]
      · simp [jsSet, jsGet, h, h2, ih]

theorem jsKeys_jsSet_of_mem {α β : Type} [DecidableEq α] (m : List (α × β))
    (k : α) (v : β) (hk : k ∈ jsKeys m) : jsKeys (jsSet m k v) = jsKeys m := by
  induction m with
  | nil => simp [jsKeys] at hk
  | cons kv rest ih =>
    by_cases h : kv.1 = k
    · simp [jsSet, jsKeys, h]
    · have hk2 : k ∈ jsKeys rest := by
        simp only [jsKeys, List.map_cons, List.mem_cons] at hk
        exact hk.resolve_left (fun hh => h hh.symm)
      have ih2 := ih hk2
      simp only [jsKeys] at ih2
      simp [jsSet, jsKeys, h, ih2]

theorem jsGet_isSome_iff_mem_keys {α β : Type} [DecidableEq α]
    (m : List (α × β)) (k : α) : (jsGet m k).isSome ↔ k ∈ jsKeys m := by
  induction m with
  | nil => simp [jsGet, jsKeys]
  | cons kv rest ih =>
    by_cases h : kv.1 = k
    · simp [jsGet, jsKeys, h]
    · simp only [jsGet, if_neg h, jsKeys, List.map_cons, List.mem_cons]
      simp only [jsKeys] at ih
      rw [ih]
      constructor
      · exact fun hm => Or.inr hm
      · rintro (rfl | hm)
        · exact absurd rfl h
        · exact hm

theorem jsGet_initChildren_go (ids : List String)
    (m : List (String × List String)) (k : String) :
    jsGet (ids.foldl (fun m i => jsSet m i []) m) k =
      if k ∈ ids then some [] else jsGet m k := by
  induction ids generalizing m with
  | nil => simp
  | cons i rest ih =>
    simp only [List.foldl_cons, ih, List.mem_cons]
    by_cases hk : k ∈ rest
    · simp [hk]
    · by_cases hik : k = i
      · simp [hk, hik, jsGet_jsSet_self]
      · simp [hk, hik, jsGet_jsSet_ne m i k [] (fun hh => hik hh.symm)]

theorem jsGet_initChildren (ids : List String) (k : String) :
    jsGet (initChildren ids) k = if k ∈ ids then some [] else none := by
  simpa [initChildren] using jsGet_initChildren_go ids [] k

/-- The children list of `p` after one `childStep` whose endpoint lookups
succeed, as a membership fact. -/
theorem childStep_mem_of (m : List (String × List String)) (e : RawEdge)
    (sv cs : List String) (p c : String)
    (hs : jsGet m e.source = some sv) (ht : jsGet m e.target = some cs) :
    c ∈ (jsGet (childStep m e) p).getD [] ↔
      c ∈ (jsGet m p).getD [] ∨ (p = e.target ∧ c = e.source) := by
  unfold childStep
  rw [hs, ht]
  by_cases hmem : e.source ∈ cs
  · simp only [if_pos hmem]
    constructor
    · exact fun h => Or.inl h
    · rintro (h | ⟨rfl, rfl⟩)
      · exact h
      · rw [ht]; exact hmem
  · simp only [if_neg hmem]
    by_cases hp : p = e.target
    · subst hp
      rw [jsGet_jsSet_self, ht]
      simp only [Option.getD_some, List.mem_append, List.mem_singleton]
      constructor
      · rintro (h | rfl)
        · exact Or.inl h
        · exact Or.inr ⟨by trivial, rfl⟩
      · rintro (h | ⟨-, rfl⟩)
        · exact Or.inl h
        · exact Or.inr rfl
    · rw [jsGet_jsSet_ne _ _ _ _ (fun hh => hp hh.symm)]
      simp [hp]

theorem childStep_keys (m : List (String × List String)) (e : RawEdge) :
    jsKeys (childStep m e) = jsKeys m := by
  unfold childStep
  cases hs : jsGet m e.source with
  | none => rfl
  | some srcv =>
    cases ht : jsGet m e.target with
    | none => rfl
    | some cs =>
      by_cases hmem : e.source ∈ cs
      · simp [hmem]
      · simp only [if_neg hmem]
        apply jsKeys_jsSet_of_mem
        rw [← jsGet_isSome_iff_mem_keys, ht]
        rfl

theorem childStep_nodup (m : List (String × List String)) (e : RawEdge)
    (h : ∀ q, ((jsGet m q).getD []).Nodup) (q : String) :
    ((jsGet (childStep m e) q).getD []).Nodup := by
  unfold childStep
  cases hs : jsGet m e.source with
  | none => exact h q
  | some srcv =>
    cases ht : jsGet m e.target with
    | none => exact h q
    | some cs =>
      by_cases hmem : e.source ∈ cs
      · simp only [if_pos hmem]; exact h q
      · simp only [if_neg hmem]
        by_cases hq : q = e.target
        · subst hq
          rw [jsGet_jsSet_self]
          have := h e.target
          rw [ht] at this
          simp only [Option.getD_some] at this ⊢
          simp [List.nodup_append, this, hmem]
        · rw [jsGet_jsSet_ne _ _ _ _ (fun hh => hq hh.symm)]
          exact h q

/-- Children membership after folding `childStep` over an edge list all of
whose endpoints are keys of the map. -/
theorem childFold_mem (es : List RawEdge) (m : List (String × List String))
    (hkeys : ∀ e ∈ es, e.source ∈ jsKeys m ∧ e.target ∈ jsKeys m)
    (p c : String) :
    c ∈ (jsGet (es.foldl childStep m) p).getD [] ↔
      c ∈ (jsGet m p).getD [] ∨ ∃ e ∈ es, e.source = c ∧ e.target = p := by
  induction es generalizing m with
  | nil => simp
  | cons e rest ih =>
    have hk : e.source ∈ jsKeys m ∧ e.target ∈ jsKeys m :=
      hkeys e (List.mem_cons_self _ _)
    have hkeys2 : ∀ e2 ∈ rest, e2.source ∈ jsKeys (childStep m e) ∧
        e2.target ∈ jsKeys (childStep m e) := by
      intro e2 he2
      rw [childStep_keys]
      exact hkeys e2 (List.mem_cons_of_mem _ he2)
    obtain ⟨sv, hs⟩ := Option.isSome_iff_exists.mp
      ((jsGet_isSome_iff_mem_keys _ _).mpr hk.1)
    obtain ⟨cs, ht⟩ := Option.isSome_iff_exists.mp
      ((jsGet_isSome_iff_mem_keys _ _).mpr hk.2)
    simp only [List.foldl_cons, ih (childStep m e) hkeys2,
      childStep_mem_of m e sv cs p c hs ht, List.mem_cons]
    constructor
    · rintro ((h | ⟨hp, hc⟩) | ⟨e2, he2, hsrc, htgt⟩)
      · exact Or.inl h
      · exact Or.inr ⟨e, Or.inl rfl, hc.symm, hp.symm⟩
      · exact Or.inr ⟨e2, Or.inr he2, hsrc, htgt⟩
    · rintro (h | ⟨e2, (rfl | he2), hsrc, htgt⟩)
      · exact Or.inl (Or.inl h)
      · exact Or.inl (Or.inr ⟨htgt.symm, hsrc.symm⟩)
      · exact Or.inr ⟨e2, he2, hsrc, htgt⟩

theorem childFold_nodup (es : List RawEdge) (m : List (String × List String))
    (h : ∀ q, ((jsGet m q).getD []).Nodup) (q : String) :
    ((jsGet (es.foldl childStep m) q).getD []).Nodup := by
  induction es generalizing m with
  | nil => exact h q
  | cons e rest ih =>
    exact ih (childStep m e) (childStep_nodup m e h)

theorem childFold_keys (es : List RawEdge) (m : List (String × List String)) :
    jsKeys (es.foldl childStep m) = jsKeys m := by
  induction es generalizing m with
  | nil => rfl
  | cons e rest ih => rw [List.foldl_cons, ih, childStep_keys]

theorem mem_keys_initChildren (ids : List String) (k : String) :
    k ∈ jsKeys (initChildren ids) ↔ k ∈ ids := by
  rw [← jsGet_isSome_iff_mem_keys, jsGet_initChildren]
  by_cases h : k ∈ ids <;> simp [h]

theorem bumpY_not_mem (occ : Finset ℤ) (y : ℚ) (h : jsRound50 y ∉ occ) :
    bumpY occ y = y := by
  rw [bumpY, dif_neg h]

theorem rootIdSimple_ok_ne_nil (vns : List RawNode) (rid : String)
    (h : rootIdSimple vns = Except.ok rid) : vns ≠ [] := by
  intro hnil
  subst hnil
  simp [rootIdSimple] at h

theorem parseNodeLine_sound (line : String) (r : RawNode)
    (h : parseNodeLine line = some r) :
    r.id ≠ "" ∧ r.label ≠ "" ∧ r.type ∈ ["evidence", "inference", "conclusion"] := by
  simp only [parseNodeLine] at h
  split_ifs at h with hc
  cases h
  exact hc

theorem parseEdgeLine_sound (line : String) (r : RawEdge)
    (h : parseEdgeLine line = some r) :
    r.source ≠ "" ∧ r.target ≠ "" ∧ r.type ∈ ["support", "contradict"] := by
  simp only [parseEdgeLine] at h
  split_ifs at h with hc
  cases h
  exact hc

theorem parseNodeStage_edges (st : ParseSt) (line : String) :
    (parseNodeStage st line).edges = st.edges := by
  unfold parseNodeStage
  split_ifs with h
  · cases parseNodeLine line <;> rfl
  · rfl

theorem parseEdgeStage_nodes (st : ParseSt) (line : String) :
    (parseEdgeStage st line).nodes = st.nodes := by
  unfold parseEdgeStage
  split_ifs with h
  · cases parseEdgeLine line <;> rfl
  · rfl

theorem parseNodeStage_nodes (st : ParseSt) (line : String) :
    (parseNodeStage st line).nodes = st.nodes ∨
      ∃ r, parseNodeLine line = some r ∧
        (parseNodeStage st line).nodes = st.nodes ++ [r] := by
  unfold parseNodeStage
  split_ifs with h
  · cases hp : parseNodeLine line with
    | none => exact Or.inl rfl
    | some r => exact Or.inr ⟨r, rfl, rfl⟩
  · exact Or.inl rfl

theorem parseEdgeStage_edges (st : ParseSt) (line : String) :
    (parseEdgeStage st line).edges = st.edges ∨
      ∃ r, parseEdgeLine line = some r ∧
        (parseEdgeStage st line).edges = st.edges ++ [r] := by
  unfold parseEdgeStage
  split_ifs with h
  · cases hp : parseEdgeLine line with
    | none => exact Or.inl rfl
    | some r => exact Or.inr ⟨r, rfl, rfl⟩
  · exact Or.inl rfl

theorem parseLine_nodes_cases (st : ParseSt) (line : String) :
    (parseLine st line).nodes = st.nodes ∨
      ∃ r, parseNodeLine line = some r ∧
        (parseLine st line).nodes = st.nodes ++ [r] := by
  unfold parseLine
  split_ifs with h1 h2
  · exact Or.inl rfl
  · exact Or.inl rfl
  · rw [parseEdgeStage_nodes]
    exact parseNodeStage_nodes st line

theorem parseLine_edges_cases (st : ParseSt) (line : String) :
    (parseLine st line).edges = st.edges ∨
      ∃ r, parseEdgeLine line = some r ∧
        (parseLine st line).edges = st.edges ++ [r] := by
  unfold parseLine
  split_ifs with h1 h2
  · exact Or.inl rfl
  · exact Or.inl rfl
  · rcases parseEdgeStage_edges (parseNodeStage st line) line with hsame | ⟨r, hr, heq⟩
    · rw [hsame, parseNodeStage_edges]
      exact Or.inl rfl
    · rw [heq, parseNodeStage_edges]
      exact Or.inr ⟨r, hr, rfl⟩

/-- C1 (corrected): the simple-variant hierarchy build iterates over ALL
validated edges, so a node P's children are exactly the sources of validated
edges targeting P whether their type is "support" or "contradict"; in the
reference scenario I1's children are E1, E2 AND the contradiction source E3
(the rendering then styles the E3 link as a dashed red contradiction). -/
theorem C1_children_from_all_valid_edges :
    (∀ (data : WigmoreData) (p c : String),
      c ∈ childIds data p ↔ ∃ e ∈ validEdges data, e.source = c ∧ e.target = p) ∧
    childIds demoData "I1" = ["E1", "E2", "E3"] := by
  constructor
  · intro data p c
    have hkeys : ∀ e ∈ validEdges data,
        e.source ∈ jsKeys (initChildren ((validNodes data).map RawNode.id)) ∧
        e.target ∈ jsKeys (initChildren ((validNodes data).map RawNode.id)) := by
      intro e he
      rw [mem_keys_initChildren, mem_keys_initChildren]
      simp only [validEdges, List.mem_filter, Bool.and_eq_true] at he
      exact ⟨by simpa using he.2.1.2, by simpa using he.2.2⟩
    unfold childIds childrenMap
    rw [childFold_mem _ _ hkeys, jsGet_initChildren]
    by_cases hp : p ∈ (validNodes data).map RawNode.id <;> simp [hp]
  · decide

/-- C1 fails as stated: in the reference scenario the contradiction source E3
IS attached as a child of its edge's target I1, although no validated support
edge has source E3 and target I1. -/
theorem C1_claim_counterexample :
    "E3" ∈ childIds demoData "I1" ∧
    ∀ e ∈ validEdges demoData,
      ¬(e.type = "support" ∧ e.source = "E3" ∧ e.target = "I1") := by
  decide

/-- C2 (code bug): when no node survives validation, root selection evaluates
`validNodes[0].id` on an empty array and the render crashes with a TypeError
instead of showing the "no data" state; in fact the "No valid data to
display" branch is unreachable for every input, because any input that would
reach it crashes earlier inside the `useMemo`. -/
theorem C2_no_data_state_unreachable :
    (∀ data : WigmoreData, validNodes data = [] →
      renderSimple data = RenderOutcome.crashed JsErr.typeError) ∧
    (∀ data : WigmoreData, renderSimple data ≠ RenderOutcome.noData) := by
  constructor
  · intro data h
    simp [renderSimple, buildHierarchy, rootIdSimple, h]
  · intro data
    unfold renderSimple
    cases hb : buildHierarchy data with
    | error e => simp
    | ok r =>
      have hne : r.nodeIds ≠ [] := by
        unfold buildHierarchy at hb
        cases hr : rootIdSimple (validNodes data) with
        | error e => rw [hr] at hb; exact absurd hb (by simp)
        | ok rid =>
          rw [hr] at hb
          simp only [Except.ok.injEq] at hb
          have hvne := rootIdSimple_ok_ne_nil _ _ hr
          cases hvn : validNodes data with
          | nil => exact absurd hvn hvne
          | cons n0 rest =>
            have hkey : n0.id ∈ jsKeys (childrenMap data) := by
              unfold childrenMap
              rw [childFold_keys, mem_keys_initChildren, hvn]
              exact List.mem_map_of_mem _ (List.mem_cons_self _ _)
            rw [← hb]
            simp only [ne_eq]
            intro hcon
            rw [hcon] at hkey
            exact absurd hkey (List.not_mem_nil _)
      simp only [ne_eq]
      intro hcon
      rw [if_neg (by simpa using hne)] at hcon
      exact RenderOutcome.noConfusion hcon

/-- Witness for C2 at the concrete empty input. -/
theorem C2_witness :
    renderSimple ⟨[], []⟩ = RenderOutcome.crashed JsErr.typeError :=
  C2_no_data_state_unreachable.1 ⟨[], []⟩ rfl

/-- C3 (code bug): the extended variant looks the conclusion up with a
non-null assertion, so for a non-empty node list with no conclusion node it
throws a TypeError instead of falling back to the first node (its own
fallback `conclusionNode || nodeMap.get(data.nodes[0].id)` is dead code). -/
theorem C3_fallback_dead_code :
    buildHierarchyP5 c3badData ⟨[]⟩ = Except.error JsErr.typeError := by
  rfl

/-- C4 (corrected): the parser checks each record individually (non-empty id
and label, recognised node type; non-empty endpoints, recognised edge type)
but never deduplicates node ids and never checks edge endpoints against the
declared node ids. -/
theorem C4_per_record_wellformedness :
    ∀ text : String,
      (∀ n ∈ (parseWigmoreText text).nodes,
        n.id ≠ "" ∧ n.label ≠ "" ∧ n.type ∈ ["evidence", "inference", "conclusion"]) ∧
      (∀ e ∈ (parseWigmoreText text).edges,
        e.source ≠ "" ∧ e.target ≠ "" ∧ e.type ∈ ["support", "contradict"]) := by
  intro text
  unfold parseWigmoreText
  have key : ∀ (lines : List String) (st : ParseSt),
      (∀ n ∈ st.nodes,
        n.id ≠ "" ∧ n.label ≠ "" ∧ n.type ∈ ["evidence", "inference", "conclusion"]) →
      (∀ e ∈ st.edges,
        e.source ≠ "" ∧ e.target ≠ "" ∧ e.type ∈ ["support", "contradict"]) →
      (∀ n ∈ (lines.foldl parseLine st).nodes,
        n.id ≠ "" ∧ n.label ≠ "" ∧ n.type ∈ ["evidence", "inference", "conclusion"]) ∧
      (∀ e ∈ (lines.foldl parseLine st).edges,
        e.source ≠ "" ∧ e.target ≠ "" ∧ e.type ∈ ["support", "contradict"]) := by
    intro lines
    induction lines with
    | nil => exact fun st hn he => ⟨hn, he⟩
    | cons line rest ih =>
      intro st hn he
      rw [List.foldl_cons]
      apply ih
      · intro n hmem
        rcases parseLine_nodes_cases st line with hsame | ⟨r, hr, heq⟩
        · rw [hsame] at hmem
          exact hn n hmem
        · rw [heq] at hmem
          rcases List.mem_append.mp hmem with hold | hnew
          · exact hn n hold
          · rw [List.mem_singleton.mp hnew]
            exact parseNodeLine_sound line r hr
      · intro e hmem
        rcases parseLine_edges_cases st line with hsame | ⟨r, hr, heq⟩
        · rw [hsame] at hmem
          exact he e hmem
        · rw [heq] at hmem
          rcases List.mem_append.mp hmem with hold | hnew
          · exact he e hold
          · rw [List.mem_singleton.mp hnew]
            exact parseEdgeLine_sound line r hr
  exact key _ _ (by simp) (by simp)

/-- C4 fails as stated: on a concrete input the parser returns a node list
with a repeated id and an edge whose endpoints name no declared node. -/
theorem C4_claim_counterexample :
    ¬((parseWigmoreText c4text).nodes.map RawNode.id).Nodup ∧
    ∃ e ∈ (parseWigmoreText c4text).edges,
      e.source ∉ (parseWigmoreText c4text).nodes.map RawNode.id ∧
      e.target ∉ (parseWigmoreText c4text).nodes.map RawNode.id := by
  decide

/-- Witness for C4 at a concrete text and record. -/
theorem C4_witness :
    (⟨"A", "label a", "evidence"⟩ : RawNode) ∈
      (parseWigmoreText "Nodes:\nA | label a | evidence").nodes ∧
    ("A" ≠ "" ∧ "label a" ≠ "" ∧
      "evidence" ∈ ["evidence", "inference", "conclusion"]) :=
  ⟨by decide,
   (C4_per_record_wellformedness "Nodes:\nA | label a | evidence").1
     ⟨"A", "label a", "evidence"⟩ (by decide)⟩

theorem jsGet_mem {α β : Type} [DecidableEq α] (m : List (α × β)) (k : α)
    (v : β) (h : jsGet m k = some v) : (k, v) ∈ m := by
  induction m with
  | nil => exact absurd h (by simp [jsGet])
  | cons kv rest ih =>
    unfold jsGet at h
    split_ifs at h with heq
    · cases h
      rw [← heq]
      exact List.mem_cons_self _ _
    · exact List.mem_cons_of_mem _ (ih h)

theorem jsSet_mem_cases {α β : Type} [DecidableEq α] (m : List (α × β))
    (k : α) (v : β) (kv : α × β) (h : kv ∈ jsSet m k v) :
    kv ∈ m ∨ kv = (k, v) := by
  induction m with
  | nil => simpa [jsSet] using h
  | cons kv0 rest ih =>
    unfold jsSet at h
    split_ifs at h with heq
    · rcases List.mem_cons.mp h with rfl | hmem
      · rw [heq]
        exact Or.inr rfl
      · exact Or.inl (List.mem_cons_of_mem _ hmem)
    · rcases List.mem_cons.mp h with rfl | hmem
      · exact Or.inl (List.mem_cons_self _ _)
      · rcases ih hmem with hmem2 | hk
        · exact Or.inl (List.mem_cons_of_mem _ hmem2)
        · exact Or.inr hk

theorem take_set_of_le {α : Type} (l : List α) (i : Nat) (v : α) (N : Nat)
    (h : N ≤ i) : (l.set i v).take N = l.take N := by
  induction l generalizing i N with
  | nil => simp
  | cons a t ih =>
    cases i with
    | zero =>
      have : N = 0 := Nat.le_zero.mp h
      simp [this]
    | succ i2 =>
      cases N with
      | zero => simp
      | succ N2 =>
        simp only [List.set_cons_succ, List.take_succ_cons, List.cons.injEq,
          true_and]
        exact ih i2 N2 (Nat.succ_le_succ_iff.mp h)

/-- The copies fold of the simple variant, in the heap view: the heap only
grows, the prefix below `N` is untouched, and every copy's children reference
is at or above `N`. -/
theorem addCopyFresh_fold (ns : List PNode) (m0 : List (String × PCopy))
    (h0 : Heap) (N : Nat) (hlen : N ≤ h0.arrs.length)
    (hm : ∀ kv ∈ m0, N ≤ kv.2.childRef) :
    N ≤ (ns.foldl addCopyFresh (m0, h0)).2.arrs.length ∧
    (ns.foldl addCopyFresh (m0, h0)).2.arrs.take N = h0.arrs.take N ∧
    ∀ kv ∈ (ns.foldl addCopyFresh (m0, h0)).1, N ≤ kv.2.childRef := by
  induction ns generalizing m0 h0 with
  | nil => exact ⟨hlen, rfl, hm⟩
  | cons n rest ih =>
    rw [List.foldl_cons]
    have hstep : addCopyFresh (m0, h0) n =
        (jsSet m0 n.id ⟨n.id, n.label, n.type, h0.arrs.length⟩,
         ⟨h0.arrs ++ [[]]⟩) := rfl
    rw [hstep]
    have hlen2 : N ≤ (h0.arrs ++ [[]]).length := by
      rw [List.length_append]
      omega
    have hm2 : ∀ kv ∈ jsSet m0 n.id ⟨n.id, n.label, n.type, h0.arrs.length⟩,
        N ≤ kv.2.childRef := by
      intro kv hkv
      rcases jsSet_mem_cases _ _ _ _ hkv with hold | rfl
      · exact hm kv hold
      · exact hlen
    obtain ⟨r1, r2, r3⟩ := ih _ ⟨h0.arrs ++ [[]]⟩ hlen2 hm2
    refine ⟨r1, ?_, r3⟩
    rw [r2]
    exact List.take_append_of_le_length hlen

/-- The children-attachment fold never writes below `N` when every copy's
children reference is at or above `N`. -/
theorem pushEdgeChild_fold (es : List PEdge) (m : List (String × PCopy))
    (h : Heap) (N : Nat) (hm : ∀ kv ∈ m, N ≤ kv.2.childRef) :
    (es.foldl (fun h e => pushEdgeChild m h e) h).arrs.take N =
      h.arrs.take N := by
  induction es generalizing h with
  | nil => rfl
  | cons e rest ih =>
    rw [List.foldl_cons]
    have hstep : (pushEdgeChild m h e).arrs.take N = h.arrs.take N := by
      unfold pushEdgeChild
      cases hs : jsGet m e.source with
      | none => rfl
      | some src =>
        cases ht : jsGet m e.target with
        | none => rfl
        | some tgt =>
          have htm : N ≤ tgt.childRef := hm (e.target, tgt) (jsGet_mem _ _ _ ht)
          by_cases hmem : HVal.copyObj src.id ∈ heapGet h tgt.childRef
          · simp only [if_pos hmem]
          · simp only [if_neg hmem, heapSet]
            exact take_set_of_le _ _ _ _ htm
    rw [ih _, hstep]

/-- C5 (amended, simple variant): the simple variant's hierarchy build leaves
every caller-owned array untouched — each node copy gets a freshly allocated
children array and all attachment happens there, so the initial heap is a
prefix of the final heap. -/
theorem C5_fresh_copies_no_mutation (data : PData) (h0 : Heap) :
    (buildHierarchyHeap data h0).2.arrs.take h0.arrs.length = h0.arrs := by
  unfold buildHierarchyHeap
  obtain ⟨r1, r2, r3⟩ := addCopyFresh_fold
    (data.nodes.filter fun n =>
      n.id != "" && ["evidence", "inference", "conclusion"].contains n.type)
    [] h0 h0.arrs.length le_rfl (by simp)
  rw [pushEdgeChild_fold _ _ _ _ r3, r2, List.take_length]

/-- C5 fails as stated for the extended variant: with a caller-supplied
(initially empty) children array for I1 at heap reference 0, the build pushes
the E1 copy into that very array, so the caller's array is no longer equal to
its value before the call. -/
theorem C5_claim_counterexample :
    heapGet ⟨[[]]⟩ 0 = [] ∧
    (buildHierarchyP5 c5data ⟨[[]]⟩).map (fun res => heapGet res.2 0) =
      Except.ok [HVal.copyObj "E1"] :=
  ⟨rfl, rfl⟩

/-- C8 (confirmed): the duplicate check of the simple-variant hierarchy build
compares against the single per-id copy, so no child id ever appears twice
under the same parent — in particular duplicate support edges attach their
child only once. -/
theorem C8_children_nodup (data : WigmoreData) (p : String) :
    (childIds data p).Nodup := by
  unfold childIds childrenMap
  apply childFold_nodup
  intro q
  rw [jsGet_initChildren]
  by_cases h : q ∈ (validNodes data).map RawNode.id <;> simp [h]

/-- One step of the explanation fold when the target is positioned, as a
reusable equation. -/
theorem explainGo_cons_of_get (ch stg : ℚ) (total : Nat) (s : LayoutSt)
    (i : Nat) (e : PEdge) (rest : List (Nat × PEdge)) (t : Pos)
    (h : jsGet s.pos e.target = some t) :
    explainGo ch stg total s ((i, e) :: rest) =
      explainGo ch stg total
        ⟨jsSet s.pos e.source
           ⟨t.x + (-300),
            min (bumpY s.occ (t.y + ((i : ℚ) - ((total : ℚ) - 1) / 2) * stg)) ch⟩,
         insert (jsRound50 (bumpY s.occ (t.y + ((i : ℚ) - ((total : ℚ) - 1) / 2) * stg)))
           s.occ⟩
        rest := by
  simp only [explainGo, List.foldl_cons, explainStep, h]

/-- C6 (amended): for an explain edge whose target is positioned, the pass
places the source at the fixed left offset (target.x − 300) and at
`target.y + (i − (total − 1) / 2) · stagger` where `i` is the edge's GLOBAL
index among all explain edges and `total` the GLOBAL explain-edge count (not
the per-target index and count), the result shifted down by 50 while its
discretised level is occupied and clamped above by the chart height. -/
theorem C6_explain_step_semantics (ch stg : ℚ) (total : Nat) (s : LayoutSt)
    (i : Nat) (e : PEdge) (rest : List (Nat × PEdge)) (t : Pos)
    (h : jsGet s.pos e.target = some t) :
    explainGo ch stg total s ((i, e) :: rest) =
      explainGo ch stg total
        ⟨jsSet s.pos e.source
           ⟨t.x + (-300),
            min (bumpY s.occ (t.y + ((i : ℚ) - ((total : ℚ) - 1) / 2) * stg)) ch⟩,
         insert (jsRound50 (bumpY s.occ (t.y + ((i : ℚ) - ((total : ℚ) - 1) / 2) * stg)))
           s.occ⟩
        rest :=
  explainGo_cons_of_get ch stg total s i e rest t h

/-- Witness for C6 at a concrete one-edge state. -/
theorem C6_witness :
    explainGo 100 10 1 ⟨[("T", ⟨0, 0⟩)], ∅⟩ [(0, ⟨"S", "T", "explain"⟩)] =
      explainGo 100 10 1
        ⟨jsSet [("T", ⟨0, 0⟩)] "S"
           ⟨(0 : ℚ) + -300,
            min (bumpY ∅ ((0 : ℚ) + (((0 : Nat) : ℚ) - (((1 : Nat) : ℚ) - 1) / 2) * 10)) 100⟩,
         insert (jsRound50 (bumpY ∅
           ((0 : ℚ) + (((0 : Nat) : ℚ) - (((1 : Nat) : ℚ) - 1) / 2) * 10))) ∅⟩
        [] :=
  C6_explain_step_semantics 100 10 1 ⟨[("T", ⟨0, 0⟩)], ∅⟩ 0 ⟨"S", "T", "explain"⟩ []
    ⟨0, 0⟩ rfl

/-- C6 fails as stated: S1 is the only explanation (per-target index 0, count
1) of target T1 at (500, 200) with stagger 100, so the claim's formula
predicts y = 200; but S1's edge is global explain edge 0 of 2, and the code
places S1 at y = 200 + (0 − (2 − 1)/2)·100 = 150. -/
theorem C6_claim_counterexample :
    jsGet (explainPass 3000 100 c6edges ⟨c6base, {200, 600}⟩).pos "S1" ≠
      some ⟨500 - 300, 200 + ((0 : ℚ) - ((1 : ℚ) - 1) / 2) * 100⟩ := by
  have hred : explainPass 3000 100 c6edges ⟨c6base, {200, 600}⟩ =
      explainGo 3000 100 2 ⟨c6base, {200, 600}⟩
        [(0, ⟨"S1", "T1", "explain"⟩), (1, ⟨"S2", "T2", "explain"⟩)] := rfl
  have harg1 : (200 : ℚ) + (((0 : Nat) : ℚ) - (((2 : Nat) : ℚ) - 1) / 2) * 100 = 150 := by
    push_cast; norm_num
  have hr150 : jsRound50 150 = 150 := by norm_num [jsRound50]
  have hb1 : bumpY ({200, 600} : Finset ℤ) 150 = 150 :=
    bumpY_not_mem _ _ (by rw [hr150]; decide)
  have hstep1 := explainGo_cons_of_get 3000 100 2 ⟨c6base, {200, 600}⟩ 0
    ⟨"S1", "T1", "explain"⟩ [(1, ⟨"S2", "T2", "explain"⟩)] ⟨500, 200⟩ rfl
  rw [hred, hstep1]
  simp only [harg1, hb1, hr150]
  have hxy : ((500 : ℚ) + -300) = 200 := by norm_num
  have hmin : min (150 : ℚ) 3000 = 150 := by norm_num
  rw [hxy, hmin]
  have harg2 : (600 : ℚ) + (((1 : Nat) : ℚ) - (((2 : Nat) : ℚ) - 1) / 2) * 100 = 650 := by
    push_cast; norm_num
  have hr650 : jsRound50 650 = 650 := by norm_num [jsRound50]
  have hb2 : bumpY (insert 150 {200, 600} : Finset ℤ) 650 = 650 :=
    bumpY_not_mem _ _ (by rw [hr650]; decide)
  have hstep2 := explainGo_cons_of_get 3000 100 2
    ⟨jsSet c6base "S1" ⟨200, 150⟩, insert 150 {200, 600}⟩ 1
    ⟨"S2", "T2", "explain"⟩ [] ⟨800, 600⟩ rfl
  rw [hstep2]
  simp only [harg2, hb2, hr650]
  have hfin : min (650 : ℚ) 3000 = 650 := by norm_num
  rw [hfin]
  have hget : jsGet (explainGo 3000 100 2
      ⟨jsSet (jsSet c6base "S1" ⟨200, 150⟩) "S2" ⟨800 + -300, 650⟩,
       insert 650 (insert 150 {200, 600})⟩ []).pos "S1" = some ⟨200, 150⟩ := rfl
  rw [hget]
  intro hcon
  simp only [Option.some.injEq, Pos.mk.injEq] at hcon
  have h2 := hcon.2
  norm_num at h2

/-- C7 (confirmed): the layout after the tree pass is a pure function of the
tree-pass positions, the edge list, the hierarchy children lists, and the
shape parameters — two runs on equal inputs produce identical position maps.
The tree pass itself is the deterministic `d3.tree` layout, represented here
by the base position map it produced. -/
theorem C7_layout_deterministic (b1 b2 : List (String × Pos))
    (e1 e2 : List PEdge) (c1 c2 : String → List String)
    (lh1 lh2 cw1 cw2 ch1 ch2 : ℚ) :
    b1 = b2 → e1 = e2 → c1 = c2 → lh1 = lh2 → cw1 = cw2 → ch1 = ch2 →
    layoutLateral b1 e1 c1 lh1 cw1 ch1 = layoutLateral b2 e2 c2 lh2 cw2 ch2 := by
  intro h1 h2 h3 h4 h5 h6
  rw [h1, h2, h3, h4, h5, h6]

/-- Witness for C7 at concrete equal inputs. -/
theorem C7_witness :
    layoutLateral [("A", ⟨1, 2⟩)] [⟨"A", "A", "refute"⟩] (fun _ => []) 1 1 1 =
      layoutLateral [("A", ⟨1, 2⟩)] [⟨"A", "A", "refute"⟩] (fun _ => []) 1 1 1 :=
  C7_layout_deterministic _ _ _ _ _ _ _ _ _ _ _ _ rfl rfl rfl rfl rfl rfl

/-- C9 (confirmed): after the lateral passes, the layout reads the position
of node id "X2" (defaulting to (400, 400) when absent) and unconditionally
overwrites the positions of node ids "R2" and "E3" — regardless of whether
any of those ids exist in the graph — leaving every other id's position
untouched and discarding whatever the general rules computed for R2 and
E3. -/
theorem C9_hardcoded_positions (m : List (String × Pos)) (lh : ℚ) :
    jsGet (hardcodeStep lh m) "R2" =
      some ⟨((jsGet m "X2").getD ⟨400, 400⟩).x + 200,
            ((jsGet m "X2").getD ⟨400, 400⟩).y⟩ ∧
    jsGet (hardcodeStep lh m) "E3" =
      some ⟨((jsGet m "X2").getD ⟨400, 400⟩).x + 250,
            ((jsGet m "X2").getD ⟨400, 400⟩).y + lh⟩ ∧
    ∀ k : String, k ≠ "R2" → k ≠ "E3" →
      jsGet (hardcodeStep lh m) k = jsGet m k := by
  unfold hardcodeStep
  refine ⟨?_, ?_, ?_⟩
  · rw [jsGet_jsSet_ne _ _ _ _ (by decide : ("E3" : String) ≠ "R2"),
      jsGet_jsSet_self]
  · rw [jsGet_jsSet_self]
  · intro k h1 h2
    rw [jsGet_jsSet_ne _ _ _ _ (Ne.symm h2), jsGet_jsSet_ne _ _ _ _ (Ne.symm h1)]

/-- Witness for C9 on the empty position map: R2 is placed from the (400,
400) default even though no node exists at all, and an unrelated id is left
alone. -/
theorem C9_witness :
    jsGet (hardcodeStep 10 []) "R2" = some ⟨600, 400⟩ ∧
    jsGet (hardcodeStep 10 []) "A" = jsGet ([] : List (String × Pos)) "A" := by
  refine ⟨?_, (C9_hardcoded_positions [] 10).2.2 "A" (by decide) (by decide)⟩
  have h := (C9_hardcoded_positions [] 10).1
  rw [h]
  norm_num [jsGet]

/-- Invariants of the recursive walk, by induction on the fuel: the log stays
duplicate-free and inside the processed set, the processed set only grows,
and with fuel exceeding the unprocessed edge sources the model never runs
out of fuel. -/
theorem posWalk_invariants (edges : List PEdge) (nodeIds : List String)
    (cw chH : ℚ) : ∀ fuel : Nat,
    (∀ (st : St4) (nodeId : String) (pp : Pos) (edge : PEdge) (index : Nat),
      st.log.Nodup → (∀ x ∈ st.log, x ∈ st.processed) →
      (posNode edges nodeIds cw chH fuel st nodeId pp edge index).log.Nodup ∧
      (∀ x ∈ (posNode edges nodeIds cw chH fuel st nodeId pp edge index).log,
        x ∈ (posNode edges nodeIds cw chH fuel st nodeId pp edge index).processed) ∧
      st.processed ⊆ (posNode edges nodeIds cw chH fuel st nodeId pp edge index).processed ∧
      (nodeId ∈ sourcesFinset edges →
        (sourcesFinset edges \ st.processed).card < fuel →
        (posNode edges nodeIds cw chH fuel st nodeId pp edge index).fuelOut = st.fuelOut)) ∧
    (∀ (st : St4) (l : List PEdge) (i : Nat) (pp : Pos),
      st.log.Nodup → (∀ x ∈ st.log, x ∈ st.processed) →
      (∀ e ∈ l, e.source ∈ sourcesFinset edges) →
      (posChildren edges nodeIds cw chH fuel st l i pp).log.Nodup ∧
      (∀ x ∈ (posChildren edges nodeIds cw chH fuel st l i pp).log,
        x ∈ (posChildren edges nodeIds cw chH fuel st l i pp).processed) ∧
      st.processed ⊆ (posChildren edges nodeIds cw chH fuel st l i pp).processed ∧
      ((sourcesFinset edges \ st.processed).card < fuel →
        (posChildren edges nodeIds cw chH fuel st l i pp).fuelOut = st.fuelOut)) := by
  intro fuel
  induction fuel with
  | zero =>
    have hA : ∀ (st : St4) (nodeId : String) (pp : Pos) (edge : PEdge) (index : Nat),
        st.log.Nodup → (∀ x ∈ st.log, x ∈ st.processed) →
        (posNode edges nodeIds cw chH 0 st nodeId pp edge index).log.Nodup ∧
        (∀ x ∈ (posNode edges nodeIds cw chH 0 st nodeId pp edge index).log,
          x ∈ (posNode edges nodeIds cw chH 0 st nodeId pp edge index).processed) ∧
        st.processed ⊆ (posNode edges nodeIds cw chH 0 st nodeId pp edge index).processed ∧
        (nodeId ∈ sourcesFinset edges →
          (sourcesFinset edges \ st.processed).card < 0 →
          (posNode edges nodeIds cw chH 0 st nodeId pp edge index).fuelOut = st.fuelOut) := by
      intro st nodeId pp edge index hnd hsub
      rw [posNode]
      exact ⟨hnd, hsub, Finset.Subset.refl _,
        fun _ hcard => absurd hcard (Nat.not_lt_zero _)⟩
    refine ⟨hA, ?_⟩
    intro st l
    induction l generalizing st with
    | nil =>
      intro i pp hnd hsub hl
      rw [posChildren]
      exact ⟨hnd, hsub, Finset.Subset.refl _, fun _ => rfl⟩
    | cons e rest ihl =>
      intro i pp hnd hsub hl
      rw [posChildren]
      obtain ⟨a1, a2, a3, a4⟩ := hA st e.source pp e i hnd hsub
      obtain ⟨b1, b2, b3, b4⟩ := ihl (posNode edges nodeIds cw chH 0 st e.source pp e i)
        (i + 1) pp a1 a2 (fun e2 he2 => hl e2 (List.mem_cons_of_mem _ he2))
      exact ⟨b1, b2, Finset.Subset.trans a3 b3,
        fun hcard => absurd hcard (Nat.not_lt_zero _)⟩
  | succ fuel ihf =>
    obtain ⟨ihA, ihB⟩ := ihf
    have hA : ∀ (st : St4) (nodeId : String) (pp : Pos) (edge : PEdge) (index : Nat),
        st.log.Nodup → (∀ x ∈ st.log, x ∈ st.processed) →
        (posNode edges nodeIds cw chH (fuel + 1) st nodeId pp edge index).log.Nodup ∧
        (∀ x ∈ (posNode edges nodeIds cw chH (fuel + 1) st nodeId pp edge index).log,
          x ∈ (posNode edges nodeIds cw chH (fuel + 1) st nodeId pp edge index).processed) ∧
        st.processed ⊆
          (posNode edges nodeIds cw chH (fuel + 1) st nodeId pp edge index).processed ∧
        (nodeId ∈ sourcesFinset edges →
          (sourcesFinset edges \ st.processed).card < fuel + 1 →
          (posNode edges nodeIds cw chH (fuel + 1) st nodeId pp edge index).fuelOut =
            st.fuelOut) := by
      intro st nodeId pp edge index hnd hsub
      rw [posNode]
      by_cases hproc : nodeId ∈ st.processed
      · rw [if_pos hproc]
        exact ⟨hnd, hsub, Finset.Subset.refl _, fun _ _ => rfl⟩
      · rw [if_neg hproc]
        by_cases hid : nodeIds.contains nodeId = true
        · rw [if_pos hid]
          dsimp only
          set xy := posSlot edges cw chH st.occ pp edge index with hxy
          have hnotlog : nodeId ∉ st.log := fun hx => hproc (hsub nodeId hx)
          have hnd2 : ((posCommit ⟨st.pos, st.occ, insert nodeId st.processed,
              st.log, st.fuelOut⟩ nodeId xy).log).Nodup := by
            simp [posCommit, List.nodup_append, hnd, hnotlog]
          have hsub2 : ∀ x ∈ (posCommit ⟨st.pos, st.occ, insert nodeId st.processed,
              st.log, st.fuelOut⟩ nodeId xy).log,
              x ∈ (posCommit ⟨st.pos, st.occ, insert nodeId st.processed,
                st.log, st.fuelOut⟩ nodeId xy).processed := by
            simp only [posCommit]
            intro x hx
            rcases List.mem_append.mp hx with hx | hx
            · exact Finset.mem_insert_of_mem (hsub x hx)
            · rw [List.mem_singleton.mp hx]
              exact Finset.mem_insert_self _ _
          have hl2 : ∀ e2 ∈ edges.filter (fun e => e.target == nodeId),
              e2.source ∈ sourcesFinset edges := by
            intro e2 he2
            have hmem : e2 ∈ edges := List.mem_of_mem_filter he2
            simp only [sourcesFinset, List.mem_toFinset]
            exact List.mem_map_of_mem _ hmem
          obtain ⟨b1, b2, b3, b4⟩ := ihB
            (posCommit ⟨st.pos, st.occ, insert nodeId st.processed, st.log, st.fuelOut⟩
              nodeId xy)
            (edges.filter fun e => e.target == nodeId) 0 xy hnd2 hsub2 hl2
          refine ⟨b1, b2, ?_, ?_⟩
          · refine Finset.Subset.trans ?_ b3
            simp only [posCommit]
            exact Finset.subset_insert _ _
          · intro hmemS hcard
            have hin : nodeId ∈ sourcesFinset edges \ st.processed :=
              Finset.mem_sdiff.mpr ⟨hmemS, hproc⟩
            have hcard1 : 0 < (sourcesFinset edges \ st.processed).card :=
              Finset.card_pos.mpr ⟨nodeId, hin⟩
            have heq : sourcesFinset edges \ insert nodeId st.processed =
                (sourcesFinset edges \ st.processed).erase nodeId := by
              ext a
              simp only [Finset.mem_sdiff, Finset.mem_erase, Finset.mem_insert]
              tauto
            have hcard2 : (sourcesFinset edges \
                (posCommit ⟨st.pos, st.occ, insert nodeId st.processed, st.log,
                  st.fuelOut⟩ nodeId xy).processed).card < fuel := by
              simp only [posCommit]
              rw [heq, Finset.card_erase_of_mem hin]
              omega
            rw [b4 hcard2]
            rfl
        · rw [if_neg hid]
          exact ⟨hnd, fun x hx => Finset.mem_insert_of_mem (hsub x hx),
            Finset.subset_insert _ _, fun _ _ => rfl⟩
    refine ⟨hA, ?_⟩
    intro st l
    induction l generalizing st with
    | nil =>
      intro i pp hnd hsub hl
      rw [posChildren]
      exact ⟨hnd, hsub, Finset.Subset.refl _, fun _ => rfl⟩
    | cons e rest ihl =>
      intro i pp hnd hsub hl
      rw [posChildren]
      have heS : e.source ∈ sourcesFinset edges := hl e (List.mem_cons_self _ _)
      obtain ⟨a1, a2, a3, a4⟩ := hA st e.source pp e i hnd hsub
      obtain ⟨b1, b2, b3, b4⟩ := ihl
        (posNode edges nodeIds cw chH (fuel + 1) st e.source pp e i) (i + 1) pp a1 a2
        (fun e2 he2 => hl e2 (List.mem_cons_of_mem _ he2))
      refine ⟨b1, b2, Finset.Subset.trans a3 b3, ?_⟩
      intro hcard
      have hsdiff : sourcesFinset edges \
          (posNode edges nodeIds cw chH (fuel + 1) st e.source pp e i).processed ⊆
          sourcesFinset edges \ st.processed :=
        Finset.sdiff_subset_sdiff (Finset.Subset.refl _) a3
      have hcard2 : (sourcesFinset edges \
          (posNode edges nodeIds cw chH (fuel + 1) st e.source pp e i).processed).card <
          fuel + 1 := lt_of_le_of_lt (Finset.card_le_card hsdiff) hcard
      rw [b4 hcard2, a4 heS hcard]

/-- C10 (confirmed): `positionNode` checks the processed set before doing any
work and inserts the node immediately, so every node id is assigned a
position at most once per render (the assignment log is duplicate-free), and
the recursive walk over child edges terminates for every finite edge list —
cyclic support subgraphs included — which the model expresses by never
exhausting a fuel bound of (number of distinct edge sources) + 1. -/
theorem C10_processed_guard_terminates :
    ∀ (data : PData) (w h : ℚ) (r : St4),
      layoutRecursive data w h = some r → r.fuelOut = false ∧ r.log.Nodup := by
  intro data w h r hr
  obtain ⟨ns, es⟩ := data
  cases ns with
  | nil => exact absurd hr (by simp [layoutRecursive])
  | cons n0 rest =>
    simp only [layoutRecursive, Option.some.injEq] at hr
    obtain ⟨-, hB⟩ := posWalk_invariants es ((n0 :: rest).map PNode.id) (w - 600)
      (h - 400) ((es.map PEdge.source).dedup.length + 1)
    have hl : ∀ e ∈ es.filter (fun e =>
        e.target == (((n0 :: rest).find? fun n => n.type == "conclusion").getD n0).id),
        e.source ∈ sourcesFinset es := by
      intro e2 he2
      simp only [sourcesFinset, List.mem_toFinset]
      exact List.mem_map_of_mem _ (List.mem_of_mem_filter he2)
    obtain ⟨b1, b2, b3, b4⟩ := hB
      ⟨[((((n0 :: rest).find? fun n => n.type == "conclusion").getD n0).id,
          ⟨(w - 600) / 2, 0⟩)], {0},
        {(((n0 :: rest).find? fun n => n.type == "conclusion").getD n0).id},
        [(((n0 :: rest).find? fun n => n.type == "conclusion").getD n0).id], false⟩
      (es.filter fun e =>
        e.target == (((n0 :: rest).find? fun n => n.type == "conclusion").getD n0).id)
      0 ⟨(w - 600) / 2, 0⟩ (List.nodup_singleton _) (by simp) hl
    have hcard : (sourcesFinset es \
        {(((n0 :: rest).find? fun n => n.type == "conclusion").getD n0).id}).card <
        (es.map PEdge.source).dedup.length + 1 := by
      have h1 : (sourcesFinset es \
          {(((n0 :: rest).find? fun n => n.type == "conclusion").getD n0).id}).card ≤
          (sourcesFinset es).card :=
        Finset.card_le_card Finset.sdiff_subset
      have h2 : (sourcesFinset es).card = (es.map PEdge.source).dedup.length := by
        simp [sourcesFinset, List.card_toFinset]
      omega
    rw [← hr]
    exact ⟨b4 hcard, b1⟩

/-- Witness for C10 at a concrete one-node graph. -/
theorem C10_witness :
    (⟨[("C1", ⟨400, 0⟩)], {0}, {"C1"}, ["C1"], false⟩ : St4).fuelOut = false ∧
    (⟨[("C1", ⟨400, 0⟩)], {0}, {"C1"}, ["C1"], false⟩ : St4).log.Nodup :=
  C10_processed_guard_terminates c10data 1400 4000 _ (by
    simp only [layoutRecursive, c10data]
    rw [posChildren.eq_def]
    norm_num)

end Wigmore
